import Mathlib

/-!
Shallow embedding of `src/hole.rs` of linked-list-allocator: an intrusive,
first-fit, coalescing free-list allocator.  The pointer-linked chain of `Hole`
nodes hanging off the dummy head is modelled as a `List HoleInfo` of
(address, size) pairs, and the dummy head is modelled by its `size` field
alone (its stack address is a parameter `dummyAddr` where the source would
take the address of `self.first`).  Failing `assert!`s and `Option::unwrap`
panics are modelled as `none` / `panic` results.
-/

/-- `HoleInfo` in hole.rs: basic information about a hole. -/
structure HoleInfo where
  addr : Nat
  size : Nat
deriving DecidableEq, Repr

/-- The model of `HoleList` in hole.rs: the dummy head's `first.size`
(`firstSize`) together with the chain of real holes reachable from
`first.next`. -/
structure HoleList where
  firstSize : Nat
  holes : List HoleInfo
deriving DecidableEq, Repr

/-- `HoleList::min_size()`: `size_of::<usize>() * 2`, i.e. 16 on the 64-bit
target (matching the spec's scenarios, which use `min_size = 16`). -/
def HoleList.min_size : Nat := 16

/-- `HoleList::empty()`. -/
def HoleList.empty : HoleList := ⟨0, []⟩

/-- `HoleList::new(ptr, size)`: writes a hole of the given size at `ptr` and
points the dummy head at it. -/
def HoleList.new (ptr size : Nat) : HoleList := ⟨0, [⟨ptr, size⟩]⟩

/-- Modelled from the spec: `align_up` lives in `src/lib.rs`, which is not
among the provided sources.  Spec §4.2 step 1: "Compute `aligned_address` =
smallest multiple of `align` that is ≥ `address`" (for `align` a power of
two). -/
def align_up (addr align : Nat) : Nat :=
  if align = 0 then addr else ((addr + align - 1) / align) * align

/-- `Allocation` in hole.rs: the result of `split_hole` /
`allocate_first_fit`. -/
structure Allocation where
  info : HoleInfo
  front_padding : Option HoleInfo
  back_padding : Option HoleInfo
deriving DecidableEq, Repr

/-- `split_hole(hole, required_size, required_align)` in hole.rs.  The three
`return None` paths of the source (hole too small; front padding that would
be a too-small hole; back padding that would be a too-small hole) are the
three guards; on success the optional paddings are exactly the source's
`front_padding` / `back_padding` values. -/
def split_hole (hole : HoleInfo) (required_size required_align : Nat) :
    Option Allocation :=
  let aligned_addr := align_up hole.addr required_align
  if aligned_addr + required_size > hole.addr + hole.size then
    -- hole is too small
    none
  else if aligned_addr ≠ hole.addr ∧ aligned_addr < hole.addr + HoleList.min_size then
    -- the required padding would create a new, too small hole
    none
  else
    let aligned_size := hole.size - (aligned_addr - hole.addr)
    if aligned_size ≠ required_size ∧ aligned_size - required_size < HoleList.min_size then
      -- the remains would form a new, too small hole
      none
    else
      some ⟨⟨aligned_addr, required_size⟩,
        if aligned_addr = hole.addr then none
        else some ⟨hole.addr, aligned_addr - hole.addr⟩,
        if aligned_size = required_size then none
        else some ⟨aligned_addr + required_size, aligned_size - required_size⟩⟩

/-- Outcome of the free function `allocate_first_fit` in hole.rs.  `noFit` is
the function returning `None`; `panic` is the `next_unwrap()` call in the
`or_else` closure unwrapping a `None` option. -/
inductive AllocOutcome where
  | success (a : Allocation) (rest : List HoleInfo)
  | noFit
  | panic
deriving DecidableEq, Repr

/-- The free function `allocate_first_fit(previous, size, align)` in hole.rs.
The list argument is the chain hanging off `previous.next`; on success the
chosen hole is unlinked (`previous.next = previous.next_unwrap().next.take()`)
and the returned list is the remaining chain.  When `previous.next` is `None`
the source's `or_else` closure still runs `previous.next_unwrap()`, which
panics. -/
def allocFirstFit : List HoleInfo → Nat → Nat → AllocOutcome
  | [], _, _ => .panic
  | h :: hs, size, align =>
    match split_hole h size align with
    | some a => .success a hs
    | none =>
      match allocFirstFit hs size align with
      | .success a hs' => .success a (h :: hs')
      | .noFit => .noFit
      | .panic => .panic

/-- The free function `deallocate(hole, addr, size)` in hole.rs.  `addr` is
the first argument of `dealloc` and never changes during the walk; `curAddr`
is the value the source computes as `hole_addr` for the current hole (0 for
the size-0 dummy, the hole's own address otherwise), `curSize` its size, and
the list is the chain hanging off `hole.next`.  Returns the current hole's
new size together with the new tail chain; `none` models a failing `assert!`.
The five guarded cases are the source's `match next_hole_info` arms in
order. -/
def dealloc (addr : Nat) : Nat → Nat → Nat → List HoleInfo →
    Option (Nat × List HoleInfo)
  | curAddr, curSize, size, [] =>
    if size < HoleList.min_size then none
    else if curAddr + curSize ≤ addr then
      -- `_` arm with no next hole: materialize a new hole at `addr`
      some (curSize, [⟨addr, size⟩])
    else none
  | curAddr, curSize, size, next :: rest =>
    if size < HoleList.min_size then none
    else if ¬ curAddr + curSize ≤ addr then none
    else if curAddr + curSize = addr ∧ addr + size = next.addr then
      -- block fills the gap between this hole and the next hole
      some (curSize + (size + next.size), rest)
    else if curAddr + curSize = addr then
      -- block is right behind this hole but there is used memory after it
      some (curSize + size, next :: rest)
    else if addr + size = next.addr then
      -- block is right before the next hole: unlink next, free merged block
      dealloc addr curAddr curSize (size + next.size) rest
    else if next.addr ≤ addr then
      -- block is behind the next hole: delegate to the next hole
      match dealloc addr (if next.size = 0 then 0 else next.addr) next.size size rest with
      | some (nsize, nrest) => some (curSize, ⟨next.addr, nsize⟩ :: nrest)
      | none => none
    else
      -- block is between this and the next hole: materialize a new hole
      some (curSize, ⟨addr, size⟩ :: next :: rest)

/-- `HoleList::deallocate(ptr, size)`: runs the free `deallocate` on the dummy
head.  The dummy's `hole_addr` is 0 when its size is 0, and otherwise its
(unknowable) stack address, passed in as `dummyAddr`. -/
def HoleList.deallocate (l : HoleList) (dummyAddr addr size : Nat) :
    Option HoleList :=
  match dealloc addr (if l.firstSize = 0 then 0 else dummyAddr) l.firstSize size l.holes with
  | some (fsize, holes) => some ⟨fsize, holes⟩
  | none => none

/-- Result of `HoleList::allocate_first_fit`: `Some(address)` / `None`
(no fit), with `panic` for a propagated panic. -/
inductive TopAllocResult where
  | success (addr : Nat) (l : HoleList)
  | noFit
  | panic
deriving DecidableEq, Repr

/-- Feeding one optional padding fragment back into the chain, as the `map`
closure of `HoleList::allocate_first_fit` does for `front_padding` and
`back_padding`. -/
def padDealloc (dummyAddr : Nat) (l : HoleList) : Option HoleInfo → Option HoleList
  | none => some l
  | some p => l.deallocate dummyAddr p.addr p.size

/-- `HoleList::allocate_first_fit(size, align)`: asserts `size >= min_size`,
runs the free `allocate_first_fit` on the chain, then deallocates the front
and back padding and returns the allocation's address. -/
def HoleList.allocate_first_fit (l : HoleList) (dummyAddr size align : Nat) :
    TopAllocResult :=
  if size < HoleList.min_size then .panic
  else
    match allocFirstFit l.holes size align with
    | .panic => .panic
    | .noFit => .noFit
    | .success a rest =>
      match padDealloc dummyAddr ⟨l.firstSize, rest⟩ a.front_padding with
      | none => .panic
      | some l1 =>
        match padDealloc dummyAddr l1 a.back_padding with
        | none => .panic
        | some l2 => .success a.info.addr l2

/-- One external call on the hole list. -/
inductive Op where
  | alloc (size align : Nat)
  | free (addr size : Nat)
deriving DecidableEq, Repr

/-- Run a single call; `none` when it panics.  A `noFit` allocation returns
normally with the list unchanged. -/
def runOp (dummyAddr : Nat) (l : HoleList) : Op → Option HoleList
  | .alloc size align =>
    match l.allocate_first_fit dummyAddr size align with
    | .success _ l' => some l'
    | .noFit => some l
    | .panic => none
  | .free addr size => l.deallocate dummyAddr addr size

/-- Run a sequence of calls, stopping at the first panic. -/
def runOps (dummyAddr : Nat) : HoleList → List Op → Option HoleList
  | l, [] => some l
  | l, op :: ops =>
    match runOp dummyAddr l op with
    | some l' => runOps dummyAddr l' ops
    | none => none

/-- The chain is strictly sorted by ascending address. -/
abbrev sortedHoles (l : List HoleInfo) : Prop :=
  l.Pairwise fun a b => a.addr < b.addr

/-- Every real hole is at least `min_size` bytes. -/
abbrev minSized (l : List HoleInfo) : Prop :=
  ∀ h ∈ l, HoleList.min_size ≤ h.size

/-- No two consecutive holes touch: each hole's end address is strictly
below the next hole's start address. -/
def noAdjacent : List HoleInfo → Bool
  | a :: b :: t => (a.addr + a.size < b.addr : Bool) && noAdjacent (b :: t)
  | _ => true

/-! ## Basic facts about `dealloc` -/

theorem min_size_pos : 0 < HoleList.min_size := by decide

/-- If a `dealloc` call returns (does not trap), its two entry `assert!`s
held: the freed size is at least `min_size` and the freed block starts at or
after the current hole's end. -/
theorem dealloc_some_entry (addr curAddr curSize size : Nat) (rest : List HoleInfo)
    (out : Nat × List HoleInfo)
    (h : dealloc addr curAddr curSize size rest = some out) :
    HoleList.min_size ≤ size ∧ curAddr + curSize ≤ addr := by
  cases rest with
  | nil =>
    simp only [dealloc] at h
    split_ifs at h
    omega
  | cons next rest =>
    simp only [dealloc] at h
    split_ifs at h <;> omega

/-- Any returning `dealloc` call preserves strict sortedness and the
min-size bound of the chain, only grows the current hole, and introduces no
address other than the freed one. -/
theorem dealloc_preserves (addr : Nat) :
    ∀ (rest : List HoleInfo) (curAddr curSize size nsize : Nat)
      (rest' : List HoleInfo),
    dealloc addr curAddr curSize size rest = some (nsize, rest') →
    sortedHoles rest → minSized rest →
    sortedHoles rest' ∧ minSized rest' ∧ curSize ≤ nsize ∧
      ∀ g ∈ rest', (∃ h0 ∈ rest, g.addr = h0.addr) ∨ g.addr = addr := by
  intro rest
  induction rest with
  | nil =>
    intro curAddr curSize size nsize rest' h _ _
    simp only [dealloc] at h
    split_ifs at h with h1 h2
    simp only [Option.some.injEq, Prod.mk.injEq] at h
    obtain ⟨rfl, rfl⟩ := h
    refine ⟨List.pairwise_singleton _ _, ?_, Nat.le_refl _, ?_⟩
    · intro g hg
      simp only [List.mem_singleton] at hg
      subst hg
      show HoleList.min_size ≤ size
      omega
    · intro g hg
      simp only [List.mem_singleton] at hg
      subst hg
      exact Or.inr rfl
  | cons next rest ih =>
    intro curAddr curSize size nsize rest' h hs hm
    rw [sortedHoles, List.pairwise_cons] at hs
    obtain ⟨hnext_lt, hs'⟩ := hs
    have hmnext : HoleList.min_size ≤ next.size := hm next (List.mem_cons_self _ _)
    have hm' : minSized rest := fun g hg => hm g (List.mem_cons_of_mem _ hg)
    have hminpos := min_size_pos
    simp only [dealloc] at h
    split_ifs at h with h1 h2 h3 h4 h5 h6
    · -- bridge: current absorbs freed block and next
      simp only [Option.some.injEq, Prod.mk.injEq] at h
      obtain ⟨rfl, rfl⟩ := h
      refine ⟨hs', hm', by omega, ?_⟩
      intro g hg
      exact Or.inl ⟨g, List.mem_cons_of_mem _ hg, rfl⟩
    · -- extend forward: current absorbs freed block
      simp only [Option.some.injEq, Prod.mk.injEq] at h
      obtain ⟨rfl, rfl⟩ := h
      refine ⟨List.pairwise_cons.mpr ⟨hnext_lt, hs'⟩, hm, by omega, ?_⟩
      intro g hg
      exact Or.inl ⟨g, hg, rfl⟩
    · -- extend backward: next unlinked, merged block freed again
      obtain ⟨s1, s2, s3, s4⟩ :=
        ih curAddr curSize (size + next.size) nsize rest' h hs' hm'
      refine ⟨s1, s2, s3, ?_⟩
      intro g hg
      rcases s4 g hg with ⟨h0, h0m, he⟩ | he
      · exact Or.inl ⟨h0, List.mem_cons_of_mem _ h0m, he⟩
      · exact Or.inr he
    · -- delegate with a zero-size next hole: impossible, next is min-sized
      exfalso
      omega
    · -- delegate to the next hole
      cases hinner : dealloc addr next.addr next.size size rest with
      | none => rw [hinner] at h; exact Option.noConfusion h
      | some out =>
        obtain ⟨nsz, nrest⟩ := out
        rw [hinner] at h
        simp only [Option.some.injEq, Prod.mk.injEq] at h
        obtain ⟨rfl, rfl⟩ := h
        obtain ⟨s1, s2, s3, s4⟩ :=
          ih next.addr next.size size nsz nrest hinner hs' hm'
        have hentry := dealloc_some_entry addr next.addr next.size size rest
          (nsz, nrest) hinner
        have hlt_addr : next.addr < addr := by omega
        refine ⟨?_, ?_, Nat.le_refl _, ?_⟩
        · refine List.pairwise_cons.mpr ⟨?_, s1⟩
          intro g hg
          rcases s4 g hg with ⟨h0, h0m, he⟩ | he
          · exact he ▸ hnext_lt h0 h0m
          · exact he ▸ hlt_addr
        · intro g hg
          rcases List.mem_cons.mp hg with rfl | hg'
          · show HoleList.min_size ≤ nsz
            omega
          · exact s2 g hg'
        · intro g hg
          rcases List.mem_cons.mp hg with rfl | hg'
          · exact Or.inl ⟨next, List.mem_cons_self _ _, rfl⟩
          · rcases s4 g hg' with ⟨h0, h0m, he⟩ | he
            · exact Or.inl ⟨h0, List.mem_cons_of_mem _ h0m, he⟩
            · exact Or.inr he
    · -- isolated: new hole between current and next
      simp only [Option.some.injEq, Prod.mk.injEq] at h
      obtain ⟨rfl, rfl⟩ := h
      refine ⟨?_, ?_, Nat.le_refl _, ?_⟩
      · refine List.pairwise_cons.mpr ⟨?_, List.pairwise_cons.mpr ⟨hnext_lt, hs'⟩⟩
        intro g hg
        have hga : next.addr ≤ g.addr := by
          rcases List.mem_cons.mp hg with heq | hg'
          · simp [heq]
          · exact Nat.le_of_lt (hnext_lt g hg')
        show addr < g.addr
        omega
      · intro g hg
        rcases List.mem_cons.mp hg with rfl | hg'
        · show HoleList.min_size ≤ size
          omega
        · exact hm g hg'
      · intro g hg
        rcases List.mem_cons.mp hg with rfl | hg'
        · exact Or.inr rfl
        · exact Or.inl ⟨g, hg', rfl⟩

/-! ## Basic facts about the first-fit search -/

/-- The free `allocate_first_fit` can never return the "no fit" `None`: the
exhausted-chain path goes through `next_unwrap` and panics instead. -/
theorem allocFirstFit_never_noFit :
    ∀ (holes : List HoleInfo) (size align : Nat),
    allocFirstFit holes size align ≠ AllocOutcome.noFit := by
  intro holes
  induction holes with
  | nil => intro size align h; exact AllocOutcome.noConfusion h
  | cons h0 hs ih =>
    intro size align h
    simp only [allocFirstFit] at h
    cases hsplit : split_hole h0 size align with
    | some a => rw [hsplit] at h; exact AllocOutcome.noConfusion h
    | none =>
      rw [hsplit] at h
      cases hrec : allocFirstFit hs size align with
      | success a hs' => rw [hrec] at h; exact AllocOutcome.noConfusion h
      | noFit => exact ih size align hrec
      | panic => rw [hrec] at h; exact AllocOutcome.noConfusion h

/-- A successful first-fit search selected some hole of the chain and
accepted it via `split_hole`. -/
theorem allocFirstFit_picks :
    ∀ (holes : List HoleInfo) (size align : Nat) (a : Allocation)
      (rest : List HoleInfo),
    allocFirstFit holes size align = .success a rest →
    ∃ g ∈ holes, split_hole g size align = some a := by
  intro holes
  induction holes with
  | nil => intro size align a rest h; exact AllocOutcome.noConfusion h
  | cons h0 hs ih =>
    intro size align a rest h
    simp only [allocFirstFit] at h
    cases hsplit : split_hole h0 size align with
    | some a0 =>
      rw [hsplit] at h
      simp only [AllocOutcome.success.injEq] at h
      obtain ⟨rfl, rfl⟩ := h
      exact ⟨h0, List.mem_cons_self _ _, hsplit⟩
    | none =>
      rw [hsplit] at h
      cases hrec : allocFirstFit hs size align with
      | success a1 hs1 =>
        rw [hrec] at h
        simp only [AllocOutcome.success.injEq] at h
        obtain ⟨rfl, rfl⟩ := h
        obtain ⟨g, hgm, hgs⟩ := ih size align a1 hs1 hrec
        exact ⟨g, List.mem_cons_of_mem _ hgm, hgs⟩
      | noFit => rw [hrec] at h; exact AllocOutcome.noConfusion h
      | panic => rw [hrec] at h; exact AllocOutcome.noConfusion h

/-- A successful first-fit search unlinks the chosen hole, preserving
sortedness and the min-size bound; every remaining hole was in the chain. -/
theorem allocFirstFit_preserves :
    ∀ (holes : List HoleInfo) (size align : Nat) (a : Allocation)
      (rest : List HoleInfo),
    allocFirstFit holes size align = .success a rest →
    sortedHoles holes → minSized holes →
    sortedHoles rest ∧ minSized rest ∧ ∀ g ∈ rest, g ∈ holes := by
  intro holes
  induction holes with
  | nil => intro size align a rest h; exact AllocOutcome.noConfusion h
  | cons h0 hs ih =>
    intro size align a rest h hsort hmin
    rw [sortedHoles, List.pairwise_cons] at hsort
    obtain ⟨hlt, hsort'⟩ := hsort
    have hmin' : minSized hs := fun g hg => hmin g (List.mem_cons_of_mem _ hg)
    simp only [allocFirstFit] at h
    cases hsplit : split_hole h0 size align with
    | some a0 =>
      rw [hsplit] at h
      simp only [AllocOutcome.success.injEq] at h
      obtain ⟨rfl, rfl⟩ := h
      exact ⟨hsort', hmin', fun g hg => List.mem_cons_of_mem _ hg⟩
    | none =>
      rw [hsplit] at h
      cases hrec : allocFirstFit hs size align with
      | success a1 hs1 =>
        rw [hrec] at h
        simp only [AllocOutcome.success.injEq] at h
        obtain ⟨rfl, rfl⟩ := h
        obtain ⟨s1, s2, s3⟩ := ih size align a1 hs1 hrec hsort' hmin'
        refine ⟨List.pairwise_cons.mpr ⟨fun g hg => hlt g (s3 g hg), s1⟩, ?_, ?_⟩
        · intro g hg
          rcases List.mem_cons.mp hg with heq | hg'
          · exact heq ▸ hmin h0 (List.mem_cons_self _ _)
          · exact s2 g hg'
        · intro g hg
          rcases List.mem_cons.mp hg with heq | hg'
          · exact heq ▸ List.mem_cons_self _ _
          · exact List.mem_cons_of_mem _ (s3 g hg')
      | noFit => rw [hrec] at h; exact AllocOutcome.noConfusion h
      | panic => rw [hrec] at h; exact AllocOutcome.noConfusion h

/-! ## Preservation of the chain invariant by the public operations -/

/-- `HoleList::deallocate` preserves sortedness and the min-size bound of the
chain whenever it returns. -/
theorem deallocate_preserves (l : HoleList) (D addr size : Nat) (l' : HoleList)
    (h : l.deallocate D addr size = some l')
    (hs : sortedHoles l.holes) (hm : minSized l.holes) :
    sortedHoles l'.holes ∧ minSized l'.holes := by
  unfold HoleList.deallocate at h
  cases hd : dealloc addr (if l.firstSize = 0 then 0 else D) l.firstSize size l.holes with
  | none => rw [hd] at h; exact Option.noConfusion h
  | some out =>
    obtain ⟨ns, nh⟩ := out
    rw [hd] at h
    simp only [Option.some.injEq] at h
    subst h
    obtain ⟨s1, s2, _, _⟩ := dealloc_preserves addr l.holes _ _ size ns nh hd hs hm
    exact ⟨s1, s2⟩

/-- Feeding back one optional padding fragment preserves the invariant. -/
theorem padDealloc_preserves (D : Nat) (l : HoleList) (pad : Option HoleInfo)
    (l' : HoleList) (h : padDealloc D l pad = some l')
    (hs : sortedHoles l.holes) (hm : minSized l.holes) :
    sortedHoles l'.holes ∧ minSized l'.holes := by
  cases pad with
  | none =>
    simp only [padDealloc, Option.some.injEq] at h
    subst h
    exact ⟨hs, hm⟩
  | some p => exact deallocate_preserves l D p.addr p.size l' h hs hm

/-- `HoleList::allocate_first_fit` preserves sortedness and the min-size
bound of the chain whenever it returns an address. -/
theorem allocate_preserves (l : HoleList) (D size align p : Nat) (l' : HoleList)
    (h : l.allocate_first_fit D size align = .success p l')
    (hs : sortedHoles l.holes) (hm : minSized l.holes) :
    sortedHoles l'.holes ∧ minSized l'.holes := by
  unfold HoleList.allocate_first_fit at h
  split_ifs at h
  cases hrec : allocFirstFit l.holes size align with
  | panic => rw [hrec] at h; exact TopAllocResult.noConfusion h
  | noFit => rw [hrec] at h; exact TopAllocResult.noConfusion h
  | success a rest =>
    simp only [hrec] at h
    obtain ⟨s1, s2, _⟩ := allocFirstFit_preserves l.holes size align a rest hrec hs hm
    cases hf : padDealloc D ⟨l.firstSize, rest⟩ a.front_padding with
    | none =>
      simp only [hf] at h
      exact TopAllocResult.noConfusion h
    | some l1 =>
      simp only [hf] at h
      obtain ⟨t1, t2⟩ := padDealloc_preserves D ⟨l.firstSize, rest⟩ a.front_padding l1 hf s1 s2
      cases hb : padDealloc D l1 a.back_padding with
      | none =>
        simp only [hb] at h
        exact TopAllocResult.noConfusion h
      | some l2 =>
        simp only [hb, TopAllocResult.success.injEq] at h
        obtain ⟨rfl, rfl⟩ := h
        exact padDealloc_preserves D l1 a.back_padding l2 hb t1 t2

/-- A single public call preserves the chain invariant whenever it returns. -/
theorem runOp_preserves (D : Nat) (l : HoleList) (op : Op) (l' : HoleList)
    (h : runOp D l op = some l')
    (hs : sortedHoles l.holes) (hm : minSized l.holes) :
    sortedHoles l'.holes ∧ minSized l'.holes := by
  cases op with
  | alloc size align =>
    simp only [runOp] at h
    cases ha : l.allocate_first_fit D size align with
    | success p l2 =>
      rw [ha] at h
      simp only [Option.some.injEq] at h
      subst h
      exact allocate_preserves l D size align p l2 ha hs hm
    | noFit =>
      rw [ha] at h
      simp only [Option.some.injEq] at h
      subst h
      exact ⟨hs, hm⟩
    | panic => rw [ha] at h; exact Option.noConfusion h
  | free addr size => exact deallocate_preserves l D addr size l' h hs hm

/-- Any returning sequence of public calls preserves the chain invariant. -/
theorem runOps_preserves (D : Nat) :
    ∀ (ops : List Op) (l l' : HoleList), runOps D l ops = some l' →
    sortedHoles l.holes → minSized l.holes →
    sortedHoles l'.holes ∧ minSized l'.holes := by
  intro ops
  induction ops with
  | nil =>
    intro l l' h hs hm
    simp only [runOps, Option.some.injEq] at h
    subst h
    exact ⟨hs, hm⟩
  | cons op ops ih =>
    intro l l' h hs hm
    simp only [runOps] at h
    cases ho : runOp D l op with
    | none => rw [ho] at h; exact Option.noConfusion h
    | some l1 =>
      rw [ho] at h
      obtain ⟨s1, s2⟩ := runOp_preserves D l op l1 ho hs hm
      exact ih l1 l' h s1 s2

/-! ## Arithmetic facts about `align_up` and `split_hole` -/

/-- `align_up` never moves the address down. -/
theorem le_align_up (addr a : Nat) : addr ≤ align_up addr a := by
  unfold align_up
  split_ifs with h
  · exact Nat.le_refl addr
  · have h0 : 0 < a := Nat.pos_of_ne_zero h
    have key : a * ((addr + a - 1) / a) + (addr + a - 1) % a = addr + a - 1 :=
      Nat.div_add_mod _ _
    have hm : (addr + a - 1) % a < a := Nat.mod_lt _ h0
    rw [Nat.mul_comm] at key
    generalize hq : (addr + a - 1) / a * a = M at key ⊢
    generalize hr : (addr + a - 1) % a = R at key hm
    omega

/-- `align_up` returns a multiple of the alignment. -/
theorem align_up_dvd (addr a : Nat) (h : a ≠ 0) : a ∣ align_up addr a := by
  unfold align_up
  rw [if_neg h]
  exact ⟨(addr + a - 1) / a, Nat.mul_comm _ _⟩

/-- `align_up` is the least multiple of the alignment at or above the
address. -/
theorem align_up_le_of_dvd (addr a m : Nat) (h0 : 0 < a) (hdvd : a ∣ m)
    (hle : addr ≤ m) : align_up addr a ≤ m := by
  obtain ⟨t, rfl⟩ := hdvd
  unfold align_up
  rw [if_neg (Nat.pos_iff_ne_zero.mp h0)]
  have hexp : (t + 1) * a = a * t + a := by ring
  have hlt : addr + a - 1 < (t + 1) * a := by
    rw [hexp]
    generalize a * t = M at hle ⊢
    omega
  have hq : (addr + a - 1) / a < t + 1 := (Nat.div_lt_iff_lt_mul h0).mpr hlt
  calc (addr + a - 1) / a * a ≤ t * a := Nat.mul_le_mul_right a (by omega)
    _ = a * t := Nat.mul_comm _ _

/-- On success, the allocation's address is the aligned hole address. -/
theorem split_hole_addr (h0 : HoleInfo) (s a : Nat) (al : Allocation)
    (h : split_hole h0 s a = some al) :
    al.info.addr = align_up h0.addr a := by
  simp only [split_hole] at h
  split_ifs at h <;>
    first
      | exact Option.noConfusion h
      | (simp only [Option.some.injEq] at h; subst h; rfl)

/-! ## Claims -/

/-- C1: the claim says `allocate_first_fit` returns the "no fit" `None` as a
normal, non-fatal outcome when no hole fits.  The code disagrees: the
`or_else` closure runs `previous.next_unwrap()` even when `previous.next` is
`None`, so exhausting the chain always panics; the `None` outcome is
unreachable.  On the empty chain `allocate(16, 1)` panics, and in general the
search either succeeds or panics. -/
theorem C1_no_fit_panics :
    HoleList.allocate_first_fit ⟨0, []⟩ 0 16 1 = TopAllocResult.panic ∧
    allocFirstFit [] 16 1 = AllocOutcome.panic ∧
    ∀ (holes : List HoleInfo) (size align : Nat),
      (∃ a rest, allocFirstFit holes size align = AllocOutcome.success a rest) ∨
        allocFirstFit holes size align = AllocOutcome.panic := by
  refine ⟨by decide, by decide, ?_⟩
  intro holes size align
  cases h : allocFirstFit holes size align with
  | success a rest => exact Or.inl ⟨a, rest, rfl⟩
  | noFit => exact absurd h (allocFirstFit_never_noFit holes size align)
  | panic => exact Or.inr rfl

/-- C2: the claim says that after any deallocate no two consecutive holes
touch, and in particular freeing right at the end of the last hole merges
into it.  The code disagrees: the extend-forward arm is guarded by
`Some(_)`, so with no successor the default arm materializes a second,
adjacent hole.  From the single hole `[0, 16)`, `deallocate(16, 16)` returns
normally with the chain `[0, 16), [16, 32)` — two touching holes. -/
theorem C2_no_merge_at_last_hole :
    HoleList.deallocate ⟨0, [⟨0, 16⟩]⟩ 0 16 16 = some ⟨0, [⟨0, 16⟩, ⟨16, 16⟩]⟩ ∧
    noAdjacent [⟨0, 16⟩, ⟨16, 16⟩] = false :=
  ⟨by decide, by decide⟩

/-- C3: the claim says freeing `[0, 16)` and `[16, 32)` from the empty chain
in either order ends with exactly one hole `[0, 32)` and a size-0 dummy.
The code disagrees in both orders: `(0,16)` then `(16,16)` ends with the two
adjacent holes `[0, 16), [16, 32)` (the `Some(_)` guard bug), and the
reverse order ends with an empty chain and the dummy's size grown to 32
(the freed block at address 0 is bridged into the size-0 dummy, which
`deallocate` treats as occupying address 0). -/
theorem C3_coalescing_fails :
    runOps 0 ⟨0, []⟩ [.free 0 16, .free 16 16] = some ⟨0, [⟨0, 16⟩, ⟨16, 16⟩]⟩ ∧
    runOps 0 ⟨0, []⟩ [.free 16 16, .free 0 16] = some ⟨32, []⟩ ∧
    (⟨0, [⟨0, 16⟩, ⟨16, 16⟩]⟩ : HoleList) ≠ ⟨0, [⟨0, 32⟩]⟩ ∧
    (⟨32, []⟩ : HoleList) ≠ ⟨0, [⟨0, 32⟩]⟩ :=
  ⟨by decide, by decide, by decide, by decide⟩

/-- C4 counterexample: the claim says the freed region must start strictly
after the current hole's end and that a violation traps.  Here the freed
region starts exactly at the current (dummy) hole's end (0) and the call
returns normally, extending the dummy — so equality is not fatal. -/
theorem C4_equal_start_not_fatal :
    HoleList.deallocate ⟨0, [⟨32, 16⟩]⟩ 0 0 16 = some ⟨16, [⟨32, 16⟩]⟩ := by
  decide

/-- C4 (amended): at every step of the deallocate walk the freed region must
start at or after the current hole's end (`hole_addr + hole.size <= addr`,
the source's `assert!`); a strict violation (freed start below the current
hole's end) is fatal, and every returning call did satisfy the at-or-after
bound. -/
theorem C4_at_or_after_required :
    (∀ (addr curAddr curSize size : Nat) (rest : List HoleInfo),
      addr < curAddr + curSize →
      dealloc addr curAddr curSize size rest = none)
  ∧ ∀ (addr curAddr curSize size : Nat) (rest : List HoleInfo)
      (out : Nat × List HoleInfo),
      dealloc addr curAddr curSize size rest = some out →
      curAddr + curSize ≤ addr := by
  constructor
  · intro addr curAddr curSize size rest hlt
    cases rest with
    | nil =>
      simp only [dealloc]
      split_ifs <;> first | rfl | (exfalso; omega)
    | cons next rest =>
      simp only [dealloc]
      split_ifs <;> first | rfl | (exfalso; omega)
  · intro addr curAddr curSize size rest out h
    exact (dealloc_some_entry addr curAddr curSize size rest out h).2

/-- C4 witness: a strictly-overlapping free traps (`dealloc` returns `none`),
and a returning call satisfied the at-or-after bound. -/
theorem C4_at_or_after_required_w :
    dealloc 16 0 32 16 [] = none ∧ 0 + 0 ≤ 16 :=
  ⟨C4_at_or_after_required.1 16 0 32 16 [] (by decide),
   C4_at_or_after_required.2 16 0 0 16 [] (0, [⟨16, 16⟩]) (by decide)⟩

/-- C5: Scenario A on the region `[0, 32)`.  The first `allocate(16, 1)`
returns 0 leaving the hole `[16, 32)`, and the second returns 16 leaving the
chain empty, as the claim says; but the third `allocate(16, 1)` panics
(`next_unwrap` on `None`) instead of returning the "no fit" outcome. -/
theorem C5_scenarioA :
    HoleList.allocate_first_fit ⟨0, [⟨0, 32⟩]⟩ 0 16 1
      = .success 0 ⟨0, [⟨16, 16⟩]⟩ ∧
    HoleList.allocate_first_fit ⟨0, [⟨16, 16⟩]⟩ 0 16 1
      = .success 16 ⟨0, []⟩ ∧
    HoleList.allocate_first_fit ⟨0, []⟩ 0 16 1 = .panic :=
  ⟨by decide, by decide, by decide⟩

/-- C6: the split/fit algorithm rejects a hole whose front padding
(`aligned_address - address`) is nonzero and below `min_size`, likewise for
the back padding (`(address + size_of_hole) - (aligned_address + size)`);
consequently a successful allocation leaves only holes of at least
`min_size` in the chain. -/
theorem C6_fragment_policy :
    (∀ (h : HoleInfo) (s a : Nat),
      align_up h.addr a - h.addr ≠ 0 →
      align_up h.addr a - h.addr < HoleList.min_size →
      split_hole h s a = none)
  ∧ (∀ (h : HoleInfo) (s a : Nat),
      (h.addr + h.size) - (align_up h.addr a + s) ≠ 0 →
      (h.addr + h.size) - (align_up h.addr a + s) < HoleList.min_size →
      split_hole h s a = none)
  ∧ ∀ (D size align p : Nat) (l l' : HoleList),
      sortedHoles l.holes → minSized l.holes →
      HoleList.allocate_first_fit l D size align = .success p l' →
      minSized l'.holes := by
  refine ⟨?_, ?_, ?_⟩
  · intro h s a h1 h2
    have hge := le_align_up h.addr a
    simp only [split_hole]
    split_ifs <;> first | rfl | (exfalso; omega)
  · intro h s a h1 h2
    have hge := le_align_up h.addr a
    simp only [split_hole]
    split_ifs <;> first | rfl | (exfalso; omega)
  · intro D size align p l l' hs hm h
    exact (allocate_preserves l D size align p l' h hs hm).2

/-- C6 witness: a hole whose only aligned position leaves an 8-byte front
fragment is rejected, a hole whose acceptance would leave an 8-byte back
fragment is rejected, and a successful allocation leaves a min-sized
chain. -/
theorem C6_fragment_policy_w :
    split_hole ⟨8, 40⟩ 16 16 = none ∧ split_hole ⟨0, 24⟩ 16 1 = none ∧
      minSized (⟨0, [⟨16, 16⟩]⟩ : HoleList).holes :=
  ⟨C6_fragment_policy.1 ⟨8, 40⟩ 16 16 (by decide) (by decide),
   C6_fragment_policy.2.1 ⟨0, 24⟩ 16 1 (by decide) (by decide),
   C6_fragment_policy.2.2 0 16 1 0 ⟨0, [⟨0, 32⟩]⟩ ⟨0, [⟨16, 16⟩]⟩
     (by decide) (by decide) (by decide)⟩

/-- C7: along any sequence of `allocate_first_fit` / `deallocate` calls that
return (a panicking call ends the sequence and leaves no observation point),
starting from a chain that is strictly sorted with min-sized holes, the
chain stays strictly sorted by ascending address at every observation
point (every prefix of the sequence is itself such a sequence). -/
theorem C7_sortedness (D : Nat) (l l' : HoleList) (ops : List Op)
    (hs : sortedHoles l.holes) (hm : minSized l.holes)
    (hrun : runOps D l ops = some l') : sortedHoles l'.holes :=
  (runOps_preserves D ops l l' hrun hs hm).1

/-- C7 witness: a concrete allocate/deallocate sequence from a fresh list
over `[0, 32)`, ending in a sorted chain. -/
theorem C7_sortedness_w :
    sortedHoles (HoleList.new 0 32).holes ∧ minSized (HoleList.new 0 32).holes ∧
    runOps 0 (HoleList.new 0 32) [.alloc 16 1, .free 0 16] = some ⟨32, []⟩ ∧
    sortedHoles (⟨32, []⟩ : HoleList).holes :=
  ⟨by decide, by decide, by decide,
   C7_sortedness 0 (HoleList.new 0 32) ⟨32, []⟩ [.alloc 16 1, .free 0 16]
     (by decide) (by decide) (by decide)⟩

/-- C8: the claim says allocate-then-deallocate of the returned block always
restores the chain.  The code disagrees: from the single hole `[16, 48)`,
`allocate(16, 32)` returns address 32 (front padding `[16, 32)` reinserted),
but deallocating `(32, 16)` hits the missing extend-forward-at-last-hole
merge and ends with the two adjacent holes `[16, 32), [32, 48)` instead of
restoring `[16, 48)`. -/
theorem C8_roundtrip_fails :
    HoleList.allocate_first_fit ⟨0, [⟨16, 32⟩]⟩ 0 16 32
      = .success 32 ⟨0, [⟨16, 16⟩]⟩ ∧
    HoleList.deallocate ⟨0, [⟨16, 16⟩]⟩ 0 32 16
      = some ⟨0, [⟨16, 16⟩, ⟨32, 16⟩]⟩ ∧
    (⟨0, [⟨16, 16⟩, ⟨32, 16⟩]⟩ : HoleList) ≠ ⟨0, [⟨16, 32⟩]⟩ :=
  ⟨by decide, by decide, by decide⟩

/-- C9: every address returned by a successful `allocate_first_fit(size,
align)` with `align` a power of two is the `align_up` of the selected
hole's start address: a multiple of `align`, at or above the hole's start,
and the least such multiple. -/
theorem C9_alignment (l : HoleList) (D size align k p : Nat) (l' : HoleList)
    (hpow : align = 2 ^ k)
    (hrun : l.allocate_first_fit D size align = .success p l') :
    ∃ g ∈ l.holes, p = align_up g.addr align ∧ align ∣ p ∧ g.addr ≤ p ∧
      ∀ m, align ∣ m → g.addr ≤ m → p ≤ m := by
  have h0 : 0 < align := by
    subst hpow
    exact Nat.pos_pow_of_pos k (by decide)
  unfold HoleList.allocate_first_fit at hrun
  split_ifs at hrun
  cases hrec : allocFirstFit l.holes size align with
  | panic => rw [hrec] at hrun; exact TopAllocResult.noConfusion hrun
  | noFit => rw [hrec] at hrun; exact TopAllocResult.noConfusion hrun
  | success a rest =>
    simp only [hrec] at hrun
    obtain ⟨g, hgm, hgs⟩ := allocFirstFit_picks l.holes size align a rest hrec
    have haddr : a.info.addr = align_up g.addr align :=
      split_hole_addr g size align a hgs
    have hp : p = a.info.addr := by
      cases hf : padDealloc D ⟨l.firstSize, rest⟩ a.front_padding with
      | none =>
        simp only [hf] at hrun
        exact TopAllocResult.noConfusion hrun
      | some l1 =>
        simp only [hf] at hrun
        cases hb : padDealloc D l1 a.back_padding with
        | none =>
          simp only [hb] at hrun
          exact TopAllocResult.noConfusion hrun
        | some l2 =>
          simp only [hb, TopAllocResult.success.injEq] at hrun
          exact hrun.1.symm
    refine ⟨g, hgm, ?_, ?_, ?_, ?_⟩
    · rw [hp, haddr]
    · rw [hp, haddr]
      exact align_up_dvd _ _ (Nat.pos_iff_ne_zero.mp h0)
    · rw [hp, haddr]
      exact le_align_up _ _
    · intro m hdvd hle
      rw [hp, haddr]
      exact align_up_le_of_dvd _ _ m h0 hdvd hle

/-- C9 witness: allocating 16 bytes at alignment 32 = 2^5 from the hole
`[16, 48)` returns 32, the least multiple of 32 at or above 16. -/
theorem C9_alignment_w :
    ∃ g ∈ (⟨0, [⟨16, 32⟩]⟩ : HoleList).holes,
      32 = align_up g.addr 32 ∧ 32 ∣ 32 ∧ g.addr ≤ 32 ∧
        ∀ m, 32 ∣ m → g.addr ≤ m → 32 ≤ m :=
  C9_alignment ⟨0, [⟨16, 32⟩]⟩ 0 16 32 5 32 ⟨0, [⟨16, 16⟩]⟩ (by decide) (by decide)

/-- C10: a `deallocate(0, size)` on a list whose dummy has size 0 and whose
chain holds at least one real hole is classified as bridge (when the freed
block reaches the first hole) or extend-forward against the dummy, which
`deallocate` treats as occupying address 0: the freed bytes are added to the
dummy's size, which becomes nonzero, and no hole header is materialized at
address 0 (the chain is the old chain, minus the first hole in the bridge
case). -/
theorem C10_dummy_absorbs (D size : Nat) (h0 : HoleInfo) (hs : List HoleInfo)
    (hmin : HoleList.min_size ≤ size) :
    HoleList.deallocate ⟨0, h0 :: hs⟩ D 0 size
      = some ⟨size + (if size = h0.addr then h0.size else 0),
              if size = h0.addr then hs else h0 :: hs⟩
    ∧ 0 < size + (if size = h0.addr then h0.size else 0) := by
  have hpos := min_size_pos
  constructor
  · by_cases hb : size = h0.addr
    · have key : dealloc 0 0 0 size (h0 :: hs) = some (size + h0.size, hs) := by
        simp only [dealloc]
        split_ifs <;> first | (exfalso; simp only [true_and] at *; omega) | simp
      unfold HoleList.deallocate
      simp only [show (⟨0, h0 :: hs⟩ : HoleList).firstSize = 0 from rfl,
        show (⟨0, h0 :: hs⟩ : HoleList).holes = h0 :: hs from rfl]
      norm_num
      rw [key]
      simp [hb]
    · have key : dealloc 0 0 0 size (h0 :: hs) = some (size, h0 :: hs) := by
        simp only [dealloc]
        split_ifs <;> first | (exfalso; simp only [true_and] at *; omega) | simp
      unfold HoleList.deallocate
      simp only [show (⟨0, h0 :: hs⟩ : HoleList).firstSize = 0 from rfl,
        show (⟨0, h0 :: hs⟩ : HoleList).holes = h0 :: hs from rfl]
      norm_num
      rw [key]
      simp [hb]
  · split_ifs <;> omega

/-- C10 witness: with the dummy at size 0 and the single hole `[32, 48)`,
`deallocate(0, 32)` bridges into the dummy: the dummy's size becomes 48 and
the chain empties. -/
theorem C10_dummy_absorbs_w :
    HoleList.deallocate ⟨0, [⟨32, 16⟩]⟩ 7 0 32 = some ⟨48, []⟩ ∧ (0 : Nat) < 48 := by
  have h := C10_dummy_absorbs 7 32 ⟨32, 16⟩ [] (by decide)
  simpa using h
